import Mathlib

set_option maxHeartbeats 1000000

/- Shallow embedding of the envelope engine of `src/modules/xen_utilities.h`
(class `Envelope` over `std::vector<EnvelopePoint>`).  C++ `double` is modelled
by the exact rationals `ℚ`; a double computation whose result is non-finite
(NaN or an infinity, which in exact arithmetic can only arise from a division
by an exactly-zero segment width) is modelled as `none : Option ℚ`. -/

/-- Breakpoint record `EnvelopePoint` (fields `m_x`, `m_y`, accessors `getX`/`getY`). -/
@[ext]
structure EnvelopePoint where
  x : ℚ
  y : ℚ
deriving DecidableEq, Repr

instance : Inhabited EnvelopePoint := ⟨⟨0, 0⟩⟩

/-- The free-standing `erase(Cont&, F)` helper (lines 6–11):
`c.erase(std::remove_if(begin, end, f), end)` keeps, in their original order,
exactly the elements not satisfying `f`. -/
def erase (c : List EnvelopePoint) (f : EnvelopePoint → Bool) : List EnvelopePoint :=
  c.filter fun p => ! f p

/-- Modelled from the spec: JUCE's `jmap(v, smin, smax, tmin, tmax)` (the
repository's maths header is not under `src/`), per §4.1 of the spec: the
normalized-fraction linear remap `tmin + (tmax - tmin) * (v - smin) / (smax - smin)`.
A zero-width source range produces a non-finite double (the original asserts
`sourceRangeMax != sourceRangeMin` for exactly this reason); that outcome is
modelled as `none`. -/
def jmap (v smin smax tmin tmax : ℚ) : Option ℚ :=
  if smax - smin = 0 then none
  else some (tmin + (tmax - tmin) * (v - smin) / (smax - smin))

/-- Modelled from the spec: JUCE's `jlimit(lo, hi, v)` clamps `v` into `[lo, hi]`
(`v < lo ? lo : hi < v ? hi : v`). -/
def jlimit (lo hi v : ℚ) : ℚ :=
  if v < lo then lo else if hi < v then hi else v

/-- Modelled from the spec: JUCE's `Range<double>` as used by `applyToBuffer` —
an optional `(low, high)` clamp pair; the default `{}` is the zero-length range
`(0, 0)`, and `isEmpty` means zero length. -/
structure RangeD where
  start : ℚ
  stop : ℚ
deriving DecidableEq, Repr

/-- Modelled from the spec: a zero-length range is empty (the default `{}` range,
which makes `applyToBuffer` skip clamping). -/
def RangeD.isEmpty (r : RangeD) : Bool := r.start == r.stop

/-- Accessor `Envelope::getPointSafe` (lines 164–171): total point accessor.  A negative
index yields the synthetic pre-start anchor `(front.x - 0.1, front.y)`, an index
at or past the end yields `(back.x, back.y)`, otherwise the stored point. -/
def getPointSafe (pts : List EnvelopePoint) (index : ℤ) : EnvelopePoint :=
  if index < 0 then ⟨(pts.headI).x - 1/10, (pts.headI).y⟩
  else if (pts.length : ℤ) ≤ index then ⟨(pts.getLastI).x, (pts.getLastI).y⟩
  else pts.getD index.toNat ⟨0, 0⟩

/-- Search helper: `std::lower_bound` over the point list with the `getX`-comparator: index of
the first point whose time is not less than `t` (the length if there is none).
On the sorted lists the claims quantify over, the binary search coincides with
this first-index characterisation. -/
def lowerBound (pts : List EnvelopePoint) (t : ℚ) : ℕ :=
  pts.findIdx fun p => ! decide (p.x < t)

/-- The two chained `jmap` calls shared by `getValueAtTime` (lines 112–113) and
`applyToBuffer` (lines 153–154): `deltanorm = jmap(time, pt0.x, pt1.x, 0, 1)`,
then `jmap(deltanorm, 0, 1, v0, v1)`. -/
def interpVal (pt0 pt1 : EnvelopePoint) (time : ℚ) : Option ℚ :=
  (jmap time pt0.x pt1.x 0 1).bind fun deltanorm => jmap deltanorm 0 1 pt0.y pt1.y

/-- The tail of `getValueAtTime` (lines 104–115): given the located node index,
apply the degenerate-segment guard (right endpoint time replaced by the query
time when the segment is narrower than `1e-5`) and interpolate; the
(unreachable) negative-node branch returns `0.0`. -/
def interpAt (pts : List EnvelopePoint) (time : ℚ) (curnode : ℤ) : Option ℚ :=
  if 0 ≤ curnode then
    interpVal (getPointSafe pts curnode)
      (if (getPointSafe pts (curnode + 1)).x - (getPointSafe pts curnode).x < 1/100000
        then ⟨time, (getPointSafe pts (curnode + 1)).y⟩
        else getPointSafe pts (curnode + 1)) time
  else some 0

/-- Point query `Envelope::getValueAtTime` (lines 86–116): flat extension before the first
and from the last point, otherwise binary search (`lower_bound`, step back one
position unless already at the begin) and linear interpolation on the located
segment. -/
def getValueAtTime (pts : List EnvelopePoint) (time : ℚ) : Option ℚ :=
  if time < (pts.headI).x then some (pts.headI).y
  else if (pts.getLastI).x ≤ time then some (pts.getLastI).y
  else
    let k := lowerBound pts time
    if k = pts.length then some (pts.getLastI).y
    else interpAt pts time ((if k ≠ 0 then k - 1 else k : ℕ) : ℤ)

/-- The mutable scan state of `applyToBuffer`'s loop: `curnode`, `pt0`, `pt1`. -/
structure ScanState where
  curnode : ℤ
  pt0 : EnvelopePoint
  pt1 : EnvelopePoint
deriving DecidableEq, Repr

/-- The segment-advance of `applyToBuffer` (lines 145–151): increment the node,
refresh both endpoints and reapply the degenerate-segment guard, substituting
`(t1, v1)` for the right endpoint when the refreshed segment is narrower
than `1e-5`. -/
def advanceState (pts : List EnvelopePoint) (t1 : ℚ) (c : ℤ) : ScanState :=
  ⟨c, getPointSafe pts c,
    if (getPointSafe pts (c + 1)).x - (getPointSafe pts c).x < 1/100000
      then ⟨t1, (getPointSafe pts (c + 1)).y⟩
      else getPointSafe pts (c + 1)⟩

/-- One conditional advance (line 143): when the sample time has reached or
passed the current right endpoint, move to the next segment. -/
def scanStep (pts : List EnvelopePoint) (t1 time : ℚ) (st : ScanState) : ScanState :=
  if st.pt1.x ≤ time then advanceState pts t1 (st.curnode + 1) else st

/-- The value written for one sample (lines 153–154), from the post-advance
state. -/
def scanValue (st : ScanState) (time : ℚ) : Option ℚ :=
  interpVal st.pt0 st.pt1 time

/-- Sample time of index `i`: `jmap<double>(i, 0, bufsize, t0, t1)`
`= t0 + (t1 - t0) * i / bufsize` (line 142; the loop never evaluates it with
`bufsize = 0`). -/
def sTime (bufsize : ℕ) (t0 t1 : ℚ) (i : ℕ) : ℚ :=
  t0 + (t1 - t0) * (i : ℚ) / (bufsize : ℚ)

/-- The scan loop of `applyToBuffer` (lines 138–155), written with explicit
state passing; `fuel` is the number of remaining iterations (`bufsize - i`). -/
def applyLoop (pts : List EnvelopePoint) (bufsize : ℕ) (t0 t1 : ℚ) :
    ℕ → ℕ → ScanState → List (Option ℚ)
  | _, 0, _ => []
  | i, fuel + 1, st =>
    scanValue (scanStep pts t1 (sTime bufsize t0 t1 i) st) (sTime bufsize t0 t1 i) ::
      applyLoop pts bufsize t0 t1 (i + 1) fuel (scanStep pts t1 (sTime bufsize t0 t1 i) st)

/-- The initial-segment search of `applyToBuffer` (lines 121–137): `lower_bound`
seeded from `t0` with the end- and step-back adjustments when `t0` is not before
the first point, node `-1` otherwise; both endpoints read through
`getPointSafe`. -/
def initState (pts : List EnvelopePoint) (t0 : ℚ) : ScanState :=
  if (pts.headI).x ≤ t0 then
    let k1 := lowerBound pts t0
    let k2 := if k1 = pts.length then k1 - 1 else k1
    let k3 := if k2 ≠ 0 then k2 - 1 else k2
    ⟨(k3 : ℤ), getPointSafe pts (k3 : ℤ), getPointSafe pts ((k3 : ℤ) + 1)⟩
  else ⟨-1, getPointSafe pts (-1), getPointSafe pts 0⟩

/-- Bulk evaluation `Envelope::applyToBuffer` (lines 119–163): locate the initial segment once,
scan `bufsize` evenly spaced sample times over `[t0, t1)` advancing the segment
index monotonically, then clamp every written sample into the limit range when
that range is non-empty. -/
def applyToBuffer (pts : List EnvelopePoint) (bufsize : ℕ) (t0 t1 : ℚ)
    (limitrange : RangeD) : List (Option ℚ) :=
  if limitrange.isEmpty then applyLoop pts bufsize t0 t1 0 bufsize (initState pts t0)
  else (applyLoop pts bufsize t0 t1 0 bufsize (initState pts t0)).map
    (Option.map (jlimit limitrange.start limitrange.stop))

/-- Mutator `Envelope::removePoint` (lines 63–67): erase at `index` when
`0 ≤ index < size`, otherwise do nothing. -/
def removePoint (pts : List EnvelopePoint) (index : ℤ) : List EnvelopePoint :=
  if 0 ≤ index ∧ index < (pts.length : ℤ) then pts.eraseIdx index.toNat else pts

/-- Mutator `Envelope::removePointsInTimeRange` (lines 68–71): erase every point whose
time lies in the closed interval `[t0, t1]`. -/
def removePointsInTimeRange (pts : List EnvelopePoint) (t0 t1 : ℚ) : List EnvelopePoint :=
  erase pts fun a => decide (t0 ≤ a.x) && decide (a.x ≤ t1)

/-- Mutator `Envelope::removePointsConditionally` (lines 72–76). -/
def removePointsConditionally (pts : List EnvelopePoint) (f : EnvelopePoint → Bool) :
    List EnvelopePoint :=
  erase pts f

/-- Mutator `Envelope::scaleTimes` (lines 172–178): multiply every time by `sx`. -/
def scaleTimes (pts : List EnvelopePoint) (sx : ℚ) : List EnvelopePoint :=
  pts.map fun e => ⟨e.x * sx, e.y⟩

/-- Mutator `Envelope::scaleAndShiftValues` (lines 179–185): `y ↦ sy * y + shifty`. -/
def scaleAndShiftValues (pts : List EnvelopePoint) (sy shifty : ℚ) : List EnvelopePoint :=
  pts.map fun e => ⟨e.x, sy * e.y + shifty⟩

/-- The curve invariant of the spec: times sorted ascending (ties allowed, as
produced by the stable sort with the strict `<` comparator). -/
def SortedPts (pts : List EnvelopePoint) : Prop :=
  List.Pairwise (fun a b => a.x ≤ b.x) pts

/-- Consecutive breakpoints at least `1e-5` apart in time (no degenerate
segments). -/
def SpacedPts (pts : List EnvelopePoint) : Prop :=
  List.Chain' (fun a b => a.x + 1/100000 ≤ b.x) pts

instance (pts : List EnvelopePoint) : Decidable (SortedPts pts) :=
  inferInstanceAs (Decidable (List.Pairwise (fun a b : EnvelopePoint => a.x ≤ b.x) pts))

instance (pts : List EnvelopePoint) : Decidable (SpacedPts pts) :=
  inferInstanceAs (Decidable (List.Chain' (fun a b : EnvelopePoint =>
    a.x + 1/100000 ≤ b.x) pts))

/-- Proof-side shorthand for indexing the point list. -/
def ptAt (pts : List EnvelopePoint) (j : ℕ) : EnvelopePoint := pts.getD j ⟨0, 0⟩

/-- Invariant characterising the post-advance scan state of `applyToBuffer` for
sample time `t`: either before the first point (synthetic anchor segment), or on
the interior segment bracketing `t`, or in the final state whose right endpoint
was replaced by `(t1, lastValue)` by the degenerate-segment guard. -/
def StateOK (pts : List EnvelopePoint) (t1 t : ℚ) (st : ScanState) : Prop :=
  (st.curnode = -1 ∧ st.pt0 = ⟨(pts.headI).x - 1/10, (pts.headI).y⟩ ∧
    st.pt1 = pts.headI ∧ t < (pts.headI).x)
  ∨ (∃ j : ℕ, j + 1 < pts.length ∧ st.curnode = (j : ℤ) ∧ st.pt0 = ptAt pts j ∧
      st.pt1 = ptAt pts (j + 1) ∧ (ptAt pts j).x ≤ t ∧ t < (ptAt pts (j + 1)).x)
  ∨ ((pts.length : ℤ) - 1 ≤ st.curnode ∧ st.pt0 = pts.getLastI ∧
      st.pt1 = ⟨t1, (pts.getLastI).y⟩ ∧ (pts.getLastI).x ≤ t)

unseal Rat.mul Rat.inv Rat.add Rat.sub

/-! Helper lemmas about the embedding. -/

theorem ptAt_eq_getElem (pts : List EnvelopePoint) (j : ℕ) (hj : j < pts.length) :
    ptAt pts j = pts[j] :=
  List.getD_eq_getElem pts ⟨0, 0⟩ hj

theorem headI_eq_ptAt (pts : List EnvelopePoint) (h : pts ≠ []) :
    pts.headI = ptAt pts 0 := by
  cases pts with
  | nil => exact absurd rfl h
  | cons a l => rfl

theorem getLastI_eq_ptAt (pts : List EnvelopePoint) (h : pts ≠ []) :
    pts.getLastI = ptAt pts (pts.length - 1) := by
  have hlen : pts.length - 1 < pts.length := by
    cases pts with
    | nil => exact absurd rfl h
    | cons a l => simp
  rw [List.getLastI_eq_getLast?, List.getLast?_eq_getElem?, ptAt_eq_getElem pts _ hlen,
    List.getElem?_eq_getElem hlen]

theorem sorted_le (pts : List EnvelopePoint) (hs : SortedPts pts) {i j : ℕ}
    (hij : i ≤ j) (hj : j < pts.length) : (ptAt pts i).x ≤ (ptAt pts j).x := by
  rcases Nat.lt_or_ge i j with hlt | hge
  · have := List.pairwise_iff_get.mp hs ⟨i, Nat.lt_trans hlt hj⟩ ⟨j, hj⟩ hlt
    rwa [List.get_eq_getElem, List.get_eq_getElem, ← ptAt_eq_getElem pts i,
      ← ptAt_eq_getElem pts j] at this
  · have : i = j := Nat.le_antisymm hij hge
    exact this ▸ le_refl _

theorem spaced_pairwise (pts : List EnvelopePoint) (h : SpacedPts pts) :
    List.Pairwise (fun a b : EnvelopePoint => a.x + 1/100000 ≤ b.x) pts := by
  haveI : IsTrans EnvelopePoint (fun a b : EnvelopePoint => a.x + 1/100000 ≤ b.x) :=
    ⟨fun a b c hab hbc => by linarith⟩
  exact List.chain'_iff_pairwise.mp h

theorem spaced_sorted (pts : List EnvelopePoint) (h : SpacedPts pts) : SortedPts pts :=
  (spaced_pairwise pts h).imp (fun hab => by linarith)

theorem spaced_gap (pts : List EnvelopePoint) (h : SpacedPts pts) {i j : ℕ}
    (hij : i < j) (hj : j < pts.length) :
    (ptAt pts i).x + 1/100000 ≤ (ptAt pts j).x := by
  have := List.pairwise_iff_get.mp (spaced_pairwise pts h) ⟨i, Nat.lt_trans hij hj⟩ ⟨j, hj⟩ hij
  rwa [List.get_eq_getElem, List.get_eq_getElem, ← ptAt_eq_getElem pts i,
    ← ptAt_eq_getElem pts j] at this

theorem spaced_lt (pts : List EnvelopePoint) (h : SpacedPts pts) {i j : ℕ}
    (hij : i < j) (hj : j < pts.length) : (ptAt pts i).x < (ptAt pts j).x := by
  have := spaced_gap pts h hij hj
  linarith

theorem lowerBound_le_length (pts : List EnvelopePoint) (t : ℚ) :
    lowerBound pts t ≤ pts.length :=
  List.findIdx_le_length _

theorem lowerBound_eq (pts : List EnvelopePoint) (t : ℚ) (j : ℕ) (hj : j < pts.length)
    (hhit : t ≤ (ptAt pts j).x) (hbefore : ∀ m, m < j → (ptAt pts m).x < t) :
    lowerBound pts t = j := by
  unfold lowerBound
  rw [List.findIdx_eq hj]
  refine ⟨?_, fun m hm => ?_⟩
  · rw [← ptAt_eq_getElem pts j hj]
    simp [not_lt.mpr hhit]
  · have hlt := hbefore m hm
    rw [← ptAt_eq_getElem pts m (Nat.lt_trans hm hj)]
    simp [hlt]

theorem lowerBound_hit (pts : List EnvelopePoint) (t : ℚ)
    (hk : lowerBound pts t < pts.length) : t ≤ (ptAt pts (lowerBound pts t)).x := by
  have hk' : pts.findIdx (fun p => ! decide (p.x < t)) < pts.length := hk
  have h2 := @List.findIdx_getElem _ (fun p => ! decide (p.x < t)) pts hk'
  rw [← ptAt_eq_getElem pts _ hk'] at h2
  simpa [lowerBound, not_lt] using h2

theorem lowerBound_before (pts : List EnvelopePoint) (t : ℚ) {m : ℕ}
    (hm : m < lowerBound pts t) : (ptAt pts m).x < t := by
  have hmlen : m < pts.length := Nat.lt_of_lt_of_le hm (lowerBound_le_length pts t)
  have hm' : m < pts.findIdx (fun p => ! decide (p.x < t)) := hm
  have h2 := @List.not_of_lt_findIdx _ (fun p => ! decide (p.x < t)) pts m hm'
  rw [← ptAt_eq_getElem pts m hmlen] at h2
  simpa using h2

theorem getPointSafe_neg (pts : List EnvelopePoint) {index : ℤ} (h : index < 0) :
    getPointSafe pts index = ⟨(pts.headI).x - 1/10, (pts.headI).y⟩ := by
  simp [getPointSafe, h]

theorem getPointSafe_big (pts : List EnvelopePoint) {index : ℤ}
    (h : (pts.length : ℤ) ≤ index) :
    getPointSafe pts index = ⟨(pts.getLastI).x, (pts.getLastI).y⟩ := by
  have h0 : ¬ index < 0 := by omega
  simp [getPointSafe, h, h0]

theorem getPointSafe_nat (pts : List EnvelopePoint) (j : ℕ) (hj : j < pts.length) :
    getPointSafe pts (j : ℤ) = ptAt pts j := by
  have h0 : ¬ (j : ℤ) < 0 := by omega
  have h1 : ¬ (pts.length : ℤ) ≤ (j : ℤ) := by omega
  simp [getPointSafe, h0, h1, ptAt]

theorem interpVal_some (pt0 pt1 : EnvelopePoint) (t : ℚ) (h : pt1.x - pt0.x ≠ 0) :
    interpVal pt0 pt1 t
      = some (pt0.y + (pt1.y - pt0.y) * ((t - pt0.x) / (pt1.x - pt0.x))) := by
  unfold interpVal jmap
  rw [if_neg h]
  have h1 : (1 : ℚ) - 0 ≠ 0 := by norm_num
  simp only [Option.some_bind, if_neg h1, Option.some.injEq]
  ring

theorem interpVal_left (pt0 pt1 : EnvelopePoint) (h : pt1.x - pt0.x ≠ 0) :
    interpVal pt0 pt1 pt0.x = some pt0.y := by
  rw [interpVal_some pt0 pt1 pt0.x h]
  norm_num

theorem interpVal_right (pt0 pt1 : EnvelopePoint) (h : pt1.x - pt0.x ≠ 0) :
    interpVal pt0 pt1 pt1.x = some pt1.y := by
  rw [interpVal_some pt0 pt1 pt1.x h]
  rw [div_self h]
  norm_num

theorem interpVal_const (pt0 pt1 : EnvelopePoint) (t : ℚ) (h : pt1.x - pt0.x ≠ 0)
    (hy : pt1.y = pt0.y) : interpVal pt0 pt1 t = some pt0.y := by
  rw [interpVal_some pt0 pt1 t h, hy]
  norm_num

theorem interpAt_eval (pts : List EnvelopePoint) (c : ℕ) (t : ℚ)
    (hc : c + 1 < pts.length)
    (hgap : ¬ (ptAt pts (c + 1)).x - (ptAt pts c).x < 1/100000) :
    interpAt pts t (c : ℤ) = interpVal (ptAt pts c) (ptAt pts (c + 1)) t := by
  have e0 : getPointSafe pts (c : ℤ) = ptAt pts c := getPointSafe_nat pts c (by omega)
  have e1 : getPointSafe pts ((c : ℤ) + 1) = ptAt pts (c + 1) := by
    have hcast : ((c : ℤ) + 1) = ((c + 1 : ℕ) : ℤ) := by push_cast; ring
    rw [hcast]
    exact getPointSafe_nat pts (c + 1) hc
  simp only [interpAt, e0, e1]
  rw [if_pos (Int.natCast_nonneg c), if_neg hgap]

theorem getValueAtTime_before (pts : List EnvelopePoint) (t : ℚ)
    (h : t < (pts.headI).x) : getValueAtTime pts t = some (pts.headI).y := by
  simp [getValueAtTime, h]

theorem getValueAtTime_after (pts : List EnvelopePoint) (t : ℚ) (hs : SortedPts pts)
    (hne : pts ≠ []) (h : (pts.getLastI).x ≤ t) :
    getValueAtTime pts t = some (pts.getLastI).y := by
  have hlen : pts.length - 1 < pts.length := by
    have := List.length_pos.mpr hne
    omega
  have h1 : ¬ t < (pts.headI).x := by
    push_neg
    calc (pts.headI).x ≤ (pts.getLastI).x := by
          rw [headI_eq_ptAt pts hne, getLastI_eq_ptAt pts hne]
          exact sorted_le pts hs (Nat.zero_le _) hlen
      _ ≤ t := h
  simp [getValueAtTime, h1, h]

theorem getValueAtTime_seg (pts : List EnvelopePoint) (c : ℕ) (t : ℚ)
    (hsp : SpacedPts pts) (hne : pts ≠ []) (hc : c + 1 < pts.length)
    (hl : (ptAt pts c).x ≤ t) (hr : t < (ptAt pts (c + 1)).x) :
    getValueAtTime pts t = interpVal (ptAt pts c) (ptAt pts (c + 1)) t := by
  have hcl : c < pts.length := by omega
  have hss : SortedPts pts := spaced_sorted pts hsp
  have hlen1 : pts.length - 1 < pts.length := by omega
  have h1 : ¬ t < (pts.headI).x := by
    rw [headI_eq_ptAt pts hne]
    push_neg
    exact le_trans (sorted_le pts hss (Nat.zero_le c) hcl) hl
  have h2 : ¬ (pts.getLastI).x ≤ t := by
    rw [getLastI_eq_ptAt pts hne]
    push_neg
    exact lt_of_lt_of_le hr (sorted_le pts hss (by omega) hlen1)
  have hgap : ¬ (ptAt pts (c + 1)).x - (ptAt pts c).x < 1/100000 := by
    have := spaced_gap pts hsp (Nat.lt_succ_self c) hc
    push_neg
    linarith
  rcases eq_or_lt_of_le hl with heq | hlt
  · rcases Nat.eq_zero_or_pos c with hc0 | hcpos
    · subst hc0
      have hK : lowerBound pts t = 0 :=
        lowerBound_eq pts t 0 hcl (le_of_eq heq.symm) (fun m hm => absurd hm (Nat.not_lt_zero m))
      have hKlen : ¬ (0 : ℕ) = pts.length := by omega
      simp only [getValueAtTime, if_neg h1, if_neg h2, hK, if_neg hKlen, ne_eq,
        not_true_eq_false, if_neg (by simp : ¬ ((0 : ℕ) ≠ 0))]
      exact interpAt_eval pts 0 t hc hgap
    · have hK : lowerBound pts t = c :=
        lowerBound_eq pts t c hcl (le_of_eq heq.symm)
          (fun m hm => heq ▸ spaced_lt pts hsp hm hcl)
      have hKlen : ¬ c = pts.length := by omega
      have hcne : (c ≠ 0) = True := by simp [Nat.pos_iff_ne_zero.mp hcpos]
      have hgap' : ¬ (ptAt pts (c - 1 + 1)).x - (ptAt pts (c - 1)).x < 1/100000 := by
        have hcc : c - 1 + 1 = c := by omega
        rw [hcc]
        have := spaced_gap pts hsp (by omega : c - 1 < c) hcl
        push_neg
        linarith
      have heval : interpAt pts t ((c - 1 : ℕ) : ℤ)
          = interpVal (ptAt pts (c - 1)) (ptAt pts (c - 1 + 1)) t :=
        interpAt_eval pts (c - 1) t (by omega) hgap'
      have hcc : c - 1 + 1 = c := by omega
      rw [hcc] at heval
      simp only [getValueAtTime, if_neg h1, if_neg h2, hK, if_neg hKlen, hcne, if_true]
      rw [heval]
      have hd1 : (ptAt pts c).x - (ptAt pts (c - 1)).x ≠ 0 := by
        have := spaced_gap pts hsp (by omega : c - 1 < c) hcl
        intro hzero
        linarith
      have hd2 : (ptAt pts (c + 1)).x - (ptAt pts c).x ≠ 0 := by
        intro hzero
        have := spaced_gap pts hsp (Nat.lt_succ_self c) hc
        linarith
      rw [← heq]
      rw [interpVal_right (ptAt pts (c - 1)) (ptAt pts c) hd1,
        interpVal_left (ptAt pts c) (ptAt pts (c + 1)) hd2]
  · have hK : lowerBound pts t = c + 1 :=
      lowerBound_eq pts t (c + 1) hc (le_of_lt hr)
        (fun m hm => lt_of_le_of_lt (sorted_le pts hss (by omega) hcl) hlt)
    have hKlen : ¬ c + 1 = pts.length := by omega
    have hcne : (c + 1 ≠ 0) = True := by simp
    simp only [getValueAtTime, if_neg h1, if_neg h2, hK, if_neg hKlen, hcne, if_true,
      Nat.add_sub_cancel]
    exact interpAt_eval pts c t hc hgap

theorem advanceState_interior (pts : List EnvelopePoint) (t1 : ℚ) (j : ℕ)
    (hsp : SpacedPts pts) (hj : j + 1 < pts.length) :
    advanceState pts t1 (j : ℤ) = ⟨(j : ℤ), ptAt pts j, ptAt pts (j + 1)⟩ := by
  have e0 : getPointSafe pts (j : ℤ) = ptAt pts j := getPointSafe_nat pts j (by omega)
  have e1 : getPointSafe pts ((j : ℤ) + 1) = ptAt pts (j + 1) := by
    have hcast : ((j : ℤ) + 1) = ((j + 1 : ℕ) : ℤ) := by push_cast; ring
    rw [hcast]
    exact getPointSafe_nat pts (j + 1) hj
  have hgap : ¬ (ptAt pts (j + 1)).x - (ptAt pts j).x < 1/100000 := by
    have := spaced_gap pts hsp (Nat.lt_succ_self j) hj
    push_neg
    linarith
  simp only [advanceState, e0, e1, if_neg hgap]

theorem advanceState_last (pts : List EnvelopePoint) (t1 : ℚ) (c : ℤ)
    (hne : pts ≠ []) (hc : (pts.length : ℤ) - 1 ≤ c) (hcl : c < pts.length) :
    advanceState pts t1 c = ⟨c, pts.getLastI, ⟨t1, (pts.getLastI).y⟩⟩ := by
  have hn : 0 < pts.length := List.length_pos.mpr hne
  have hcv : c = (pts.length : ℤ) - 1 := by omega
  have hcn : c = ((pts.length - 1 : ℕ) : ℤ) := by omega
  have e0 : getPointSafe pts c = pts.getLastI := by
    rw [hcn, getPointSafe_nat pts (pts.length - 1) (by omega), getLastI_eq_ptAt pts hne]
  have e1 : getPointSafe pts (c + 1) = ⟨(pts.getLastI).x, (pts.getLastI).y⟩ :=
    getPointSafe_big pts (by omega)
  simp only [advanceState, e0, e1]
  norm_num

theorem advanceState_past (pts : List EnvelopePoint) (t1 : ℚ) (c : ℤ)
    (hc : (pts.length : ℤ) ≤ c) :
    advanceState pts t1 c = ⟨c, pts.getLastI, ⟨t1, (pts.getLastI).y⟩⟩ := by
  have e0 : getPointSafe pts c = ⟨(pts.getLastI).x, (pts.getLastI).y⟩ :=
    getPointSafe_big pts hc
  have e1 : getPointSafe pts (c + 1) = ⟨(pts.getLastI).x, (pts.getLastI).y⟩ :=
    getPointSafe_big pts (by omega)
  simp only [advanceState, e0, e1]
  norm_num

theorem scanStep_ok (pts : List EnvelopePoint) (t1 tp tq : ℚ) (st : ScanState)
    (hsp : SpacedPts pts) (hne : pts ≠ [])
    (hst : StateOK pts t1 tp st) (hpq : tp ≤ tq) (hq1 : tq < t1)
    (hone : ∀ j : ℕ, j + 1 < pts.length → tp < (ptAt pts j).x → (ptAt pts j).x ≤ tq →
      tq < (ptAt pts (j + 1)).x) :
    StateOK pts t1 tq (scanStep pts t1 tq st) ∧
      scanValue (scanStep pts t1 tq st) tq = getValueAtTime pts tq := by
  have hn : 0 < pts.length := List.length_pos.mpr hne
  have hss : SortedPts pts := spaced_sorted pts hsp
  have hhead : pts.headI = ptAt pts 0 := headI_eq_ptAt pts hne
  have hlast : pts.getLastI = ptAt pts (pts.length - 1) := getLastI_eq_ptAt pts hne
  obtain ⟨cn, p0, p1⟩ := st
  rcases hst with ⟨hcn, hp0, hp1, htp⟩ | ⟨j, hj, hcn, hp0, hp1, hjl, hjr⟩ |
    ⟨hcn, hp0, hp1, htp⟩
  all_goals simp only at hcn hp0 hp1
  · -- state A: before the first point
    subst hcn hp0 hp1
    rcases lt_or_le tq (pts.headI).x with hlt | hge
    · -- still before the first point: no advance
      have hcond : ¬ (ScanState.mk (-1) ⟨(pts.headI).x - 1/10, (pts.headI).y⟩
          pts.headI).pt1.x ≤ tq := not_le.mpr hlt
      rw [scanStep, if_neg hcond]
      refine ⟨Or.inl ⟨rfl, rfl, rfl, hlt⟩, ?_⟩
      rw [scanValue]
      have hd : (pts.headI).x - ((pts.headI).x - 1/10) ≠ 0 := by norm_num
      rw [show (ScanState.mk (-1) ⟨(pts.headI).x - 1/10, (pts.headI).y⟩ pts.headI).pt0
          = ⟨(pts.headI).x - 1/10, (pts.headI).y⟩ from rfl]
      rw [show (ScanState.mk (-1) ⟨(pts.headI).x - 1/10, (pts.headI).y⟩ pts.headI).pt1
          = pts.headI from rfl]
      rw [interpVal_const ⟨(pts.headI).x - 1/10, (pts.headI).y⟩ pts.headI tq hd rfl,
        getValueAtTime_before pts tq hlt]
    · -- the sample time has reached the first point: advance to node 0
      have hcond : (ScanState.mk (-1) ⟨(pts.headI).x - 1/10, (pts.headI).y⟩
          pts.headI).pt1.x ≤ tq := hge
      rw [scanStep, if_pos hcond]
      have hc01 : (-1 : ℤ) + 1 = ((0 : ℕ) : ℤ) := by norm_num
      rcases Nat.lt_or_ge 1 pts.length with hn2 | hn1
      · -- at least two points: land on segment 0
        have hq2 : tq < (ptAt pts 1).x := by
          refine hone 0 (by omega) ?_ ?_
          · rwa [← hhead]
          · rwa [← hhead]
        rw [show (ScanState.mk (-1) ⟨(pts.headI).x - 1/10, (pts.headI).y⟩
            pts.headI).curnode = (-1 : ℤ) from rfl, hc01,
          advanceState_interior pts t1 0 hsp (by omega)]
        refine ⟨Or.inr (Or.inl ⟨0, by omega, rfl, rfl, rfl, by rwa [← hhead], hq2⟩), ?_⟩
        rw [scanValue]
        exact (getValueAtTime_seg pts 0 tq hsp hne (by omega)
          (by rwa [← hhead]) hq2).symm
      · -- a single point: land in the clamped final state
        have hn1' : pts.length = 1 := by omega
        have hlq : (pts.getLastI).x ≤ tq := by
          rw [hlast, hn1']
          simpa [← hhead, hn1'] using hge
        rw [show (ScanState.mk (-1) ⟨(pts.headI).x - 1/10, (pts.headI).y⟩
            pts.headI).curnode = (-1 : ℤ) from rfl, hc01,
          advanceState_last pts t1 ((0 : ℕ) : ℤ) hne (by omega) (by omega)]
        refine ⟨Or.inr (Or.inr ⟨?_, rfl, rfl, hlq⟩), ?_⟩
        · show (pts.length : ℤ) - 1 ≤ ((0 : ℕ) : ℤ)
          omega
        rw [scanValue]
        have hd : t1 - (pts.getLastI).x ≠ 0 := by
          have : (pts.getLastI).x ≤ tq := hlq
          intro hzero
          have : t1 = (pts.getLastI).x := by linarith
          rw [this] at hq1
          linarith
        rw [show (ScanState.mk ((0:ℕ):ℤ) pts.getLastI ⟨t1, (pts.getLastI).y⟩).pt0
            = pts.getLastI from rfl]
        rw [show (ScanState.mk ((0:ℕ):ℤ) pts.getLastI ⟨t1, (pts.getLastI).y⟩).pt1
            = ⟨t1, (pts.getLastI).y⟩ from rfl]
        rw [interpVal_const pts.getLastI ⟨t1, (pts.getLastI).y⟩ tq hd rfl,
          getValueAtTime_after pts tq hss hne hlq]
  · -- state B: interior segment j
    subst hcn hp0 hp1
    rcases lt_or_le tq (ptAt pts (j + 1)).x with hlt | hge
    · -- still inside segment j: no advance
      have hcond : ¬ (ScanState.mk (j : ℤ) (ptAt pts j) (ptAt pts (j + 1))).pt1.x ≤ tq :=
        not_le.mpr hlt
      rw [scanStep, if_neg hcond]
      refine ⟨Or.inr (Or.inl ⟨j, hj, rfl, rfl, rfl, le_trans hjl hpq, hlt⟩), ?_⟩
      rw [scanValue]
      exact (getValueAtTime_seg pts j tq hsp hne hj (le_trans hjl hpq) hlt).symm
    · -- crossed the right endpoint: advance to node j + 1
      have hcond : (ScanState.mk (j : ℤ) (ptAt pts j) (ptAt pts (j + 1))).pt1.x ≤ tq := hge
      rw [scanStep, if_pos hcond]
      have hc1 : ((j : ℤ) + 1) = ((j + 1 : ℕ) : ℤ) := by push_cast; ring
      rw [show (ScanState.mk (j : ℤ) (ptAt pts j) (ptAt pts (j + 1))).curnode
          = (j : ℤ) from rfl, hc1]
      rcases Nat.lt_or_ge (j + 2) pts.length with hin | hend
      · -- lands on the interior segment j + 1
        have hq2 : tq < (ptAt pts (j + 2)).x := hone (j + 1) (by omega) hjr hge
        rw [advanceState_interior pts t1 (j + 1) hsp (by omega)]
        refine ⟨Or.inr (Or.inl ⟨j + 1, by omega, rfl, rfl, rfl, hge, hq2⟩), ?_⟩
        rw [scanValue]
        exact (getValueAtTime_seg pts (j + 1) tq hsp hne (by omega) hge hq2).symm
      · -- j + 1 is the last index: lands in the clamped final state
        have hj1 : j + 1 = pts.length - 1 := by omega
        have hlq : (pts.getLastI).x ≤ tq := by
          rw [hlast, ← hj1]
          exact hge
        rw [advanceState_last pts t1 ((j + 1 : ℕ) : ℤ) hne (by omega) (by omega)]
        refine ⟨Or.inr (Or.inr ⟨?_, rfl, rfl, hlq⟩), ?_⟩
        · show (pts.length : ℤ) - 1 ≤ ((j + 1 : ℕ) : ℤ)
          omega
        rw [scanValue]
        have hd : t1 - (pts.getLastI).x ≠ 0 := by
          intro hzero
          have : t1 = (pts.getLastI).x := by linarith
          rw [this] at hq1
          linarith
        rw [show (ScanState.mk ((j+1:ℕ):ℤ) pts.getLastI ⟨t1, (pts.getLastI).y⟩).pt0
            = pts.getLastI from rfl]
        rw [show (ScanState.mk ((j+1:ℕ):ℤ) pts.getLastI ⟨t1, (pts.getLastI).y⟩).pt1
            = ⟨t1, (pts.getLastI).y⟩ from rfl]
        rw [interpVal_const pts.getLastI ⟨t1, (pts.getLastI).y⟩ tq hd rfl,
          getValueAtTime_after pts tq hss hne hlq]
  · -- state C: clamped final state, right endpoint time is t1
    subst hp0 hp1
    have hcond : ¬ (ScanState.mk cn pts.getLastI ⟨t1, (pts.getLastI).y⟩).pt1.x ≤ tq := by
      simp only [not_le]
      exact hq1
    rw [scanStep, if_neg hcond]
    refine ⟨Or.inr (Or.inr ⟨hcn, rfl, rfl, le_trans htp hpq⟩), ?_⟩
    rw [scanValue]
    have hd : t1 - (pts.getLastI).x ≠ 0 := by
      intro hzero
      have : t1 = (pts.getLastI).x := by linarith
      rw [this] at hq1
      linarith
    rw [show (ScanState.mk cn pts.getLastI ⟨t1, (pts.getLastI).y⟩).pt0
        = pts.getLastI from rfl]
    rw [show (ScanState.mk cn pts.getLastI ⟨t1, (pts.getLastI).y⟩).pt1
        = ⟨t1, (pts.getLastI).y⟩ from rfl]
    rw [interpVal_const pts.getLastI ⟨t1, (pts.getLastI).y⟩ tq hd rfl,
      getValueAtTime_after pts tq hss hne (le_trans htp hpq)]

theorem init_ok (pts : List EnvelopePoint) (t0 t1 : ℚ) (hsp : SpacedPts pts)
    (hne : pts ≠ []) (ht01 : t0 < t1) :
    StateOK pts t1 t0 (scanStep pts t1 t0 (initState pts t0)) ∧
      scanValue (scanStep pts t1 t0 (initState pts t0)) t0 = getValueAtTime pts t0 := by
  have hn : 0 < pts.length := List.length_pos.mpr hne
  have hss : SortedPts pts := spaced_sorted pts hsp
  have hhead : pts.headI = ptAt pts 0 := headI_eq_ptAt pts hne
  have hlast : pts.getLastI = ptAt pts (pts.length - 1) := getLastI_eq_ptAt pts hne
  have e00 : getPointSafe pts ((0 : ℕ) : ℤ) = ptAt pts 0 := getPointSafe_nat pts 0 hn
  rcases lt_or_le t0 (pts.headI).x with hbef | hafter
  · -- t0 precedes the first point: the search is skipped and node -1 is used
    have hinit : initState pts t0
        = ⟨-1, ⟨(pts.headI).x - 1/10, (pts.headI).y⟩, pts.headI⟩ := by
      rw [initState, if_neg (not_le.mpr hbef)]
      rw [getPointSafe_neg pts (by norm_num : (-1 : ℤ) < 0)]
      have e0 : getPointSafe pts 0 = ptAt pts 0 := by
        have := e00
        rwa [Nat.cast_zero] at this
      rw [e0, ← hhead]
    rw [hinit]
    exact scanStep_ok pts t1 t0 t0 _ hsp hne (Or.inl ⟨rfl, rfl, rfl, hbef⟩) le_rfl ht01
      (fun j hj hlt hle => absurd (lt_of_lt_of_le hlt hle) (lt_irrefl t0))
  · rcases Nat.lt_or_ge 1 pts.length with hn2 | hn1
    · -- at least two points
      have hk_le := lowerBound_le_length pts t0
      rcases Nat.eq_zero_or_pos (lowerBound pts t0) with hk0 | hkpos
      · -- search hits index 0: t0 is exactly the first point's time
        have hhit : t0 ≤ (ptAt pts 0).x := by
          have := lowerBound_hit pts t0 (by omega)
          rwa [hk0] at this
        have ht0 : t0 = (ptAt pts 0).x := le_antisymm hhit (hhead ▸ hafter)
        have hinit : initState pts t0 = ⟨((0 : ℕ) : ℤ), ptAt pts 0, ptAt pts 1⟩ := by
          have hklen : ¬ (0 : ℕ) = pts.length := by omega
          have e1 : getPointSafe pts (((0 : ℕ) : ℤ) + 1) = ptAt pts 1 := by
            have hcast : (((0 : ℕ) : ℤ) + 1) = ((1 : ℕ) : ℤ) := by omega
            rw [hcast]
            exact getPointSafe_nat pts 1 hn2
          simp only [initState, if_pos hafter, hk0, if_neg hklen, ne_eq, not_true_eq_false,
            if_neg (by simp : ¬ ((0 : ℕ) ≠ 0)), e00, e1]
          simp only [ScanState.mk.injEq]
          refine ⟨by simp, by simpa using e00, by simpa using e1⟩
        rw [hinit]
        refine scanStep_ok pts t1 t0 t0 _ hsp hne
          (Or.inr (Or.inl ⟨0, by omega, rfl, rfl, rfl, le_of_eq ht0.symm, ?_⟩)) le_rfl ht01
          (fun j hj hlt hle => absurd (lt_of_lt_of_le hlt hle) (lt_irrefl t0))
        rw [ht0]
        exact spaced_lt pts hsp (by omega) hn2
      · rcases Nat.lt_or_ge (lowerBound pts t0) pts.length with hklt | hkge
        · -- search hits an interior index k ≥ 1: step back to k - 1
          have hk1 : 1 ≤ lowerBound pts t0 := hkpos
          have hbefk : (ptAt pts (lowerBound pts t0 - 1)).x < t0 :=
            lowerBound_before pts t0 (by omega)
          have hhit : t0 ≤ (ptAt pts (lowerBound pts t0)).x := lowerBound_hit pts t0 hklt
          have hkk : lowerBound pts t0 - 1 + 1 = lowerBound pts t0 := by omega
          have hinit : initState pts t0
              = ⟨((lowerBound pts t0 - 1 : ℕ) : ℤ), ptAt pts (lowerBound pts t0 - 1),
                  ptAt pts (lowerBound pts t0)⟩ := by
            have hklen : ¬ lowerBound pts t0 = pts.length := by omega
            have hkne : (lowerBound pts t0 ≠ 0) = True := by simp [Nat.pos_iff_ne_zero.mp hkpos]
            have e0 : getPointSafe pts ((lowerBound pts t0 - 1 : ℕ) : ℤ)
                = ptAt pts (lowerBound pts t0 - 1) :=
              getPointSafe_nat pts (lowerBound pts t0 - 1) (by omega)
            have e1 : getPointSafe pts (((lowerBound pts t0 - 1 : ℕ) : ℤ) + 1)
                = ptAt pts (lowerBound pts t0) := by
              have hcast : (((lowerBound pts t0 - 1 : ℕ) : ℤ) + 1)
                  = ((lowerBound pts t0 : ℕ) : ℤ) := by omega
              rw [hcast]
              exact getPointSafe_nat pts (lowerBound pts t0) hklt
            simp only [initState, if_pos hafter, if_neg hklen, hkne, if_true, e0, e1]
          rw [hinit]
          refine scanStep_ok pts t1 (ptAt pts (lowerBound pts t0 - 1)).x t0 _ hsp hne
            (Or.inr (Or.inl ⟨lowerBound pts t0 - 1, by omega, rfl, rfl, ?_, le_rfl, ?_⟩))
            (le_of_lt hbefk) ht01 ?_
          · rw [hkk]
          · rw [hkk]
            exact spaced_lt pts hsp (by omega) hklt
          · intro j hj hgt hle
            have hjlen : j < pts.length := by omega
            have hjge : lowerBound pts t0 ≤ j := by
              by_contra hjlt
              push_neg at hjlt
              have hjle : j ≤ lowerBound pts t0 - 1 := by omega
              exact absurd hgt (not_lt.mpr (sorted_le pts hss hjle (by omega)))
            rcases eq_or_lt_of_le hjge with rfl | hgt'
            · exact lt_of_le_of_lt hhit (spaced_lt pts hsp (Nat.lt_succ_self _) hj)
            · exact absurd hle
                (not_le.mpr (lt_of_le_of_lt hhit (spaced_lt pts hsp hgt' hjlen)))
        · -- search runs past the end: step back twice to n - 2
          have hkeq : lowerBound pts t0 = pts.length := le_antisymm hk_le hkge
          have hbefall : ∀ m, m < pts.length → (ptAt pts m).x < t0 := fun m hm =>
            lowerBound_before pts t0 (hkeq ▸ hm)
          have hn21 : pts.length - 2 + 1 = pts.length - 1 := by omega
          have hinit : initState pts t0
              = ⟨((pts.length - 2 : ℕ) : ℤ), ptAt pts (pts.length - 2),
                  ptAt pts (pts.length - 1)⟩ := by
            have hlen1ne : (pts.length - 1 ≠ 0) = True := by simp; omega
            have e0 : getPointSafe pts ((pts.length - 2 : ℕ) : ℤ)
                = ptAt pts (pts.length - 2) :=
              getPointSafe_nat pts (pts.length - 2) (by omega)
            have e1 : getPointSafe pts (((pts.length - 2 : ℕ) : ℤ) + 1)
                = ptAt pts (pts.length - 1) := by
              have hcast : (((pts.length - 2 : ℕ) : ℤ) + 1)
                  = ((pts.length - 1 : ℕ) : ℤ) := by omega
              rw [hcast]
              exact getPointSafe_nat pts (pts.length - 1) (by omega)
            have hsub : pts.length - 1 - 1 = pts.length - 2 := by omega
            simp only [initState, if_pos hafter, hkeq, if_pos rfl, hlen1ne, if_true,
              hsub, e0, e1]
          rw [hinit]
          refine scanStep_ok pts t1 (ptAt pts (pts.length - 2)).x t0 _ hsp hne
            (Or.inr (Or.inl ⟨pts.length - 2, by omega, rfl, rfl, ?_, le_rfl, ?_⟩))
            (le_of_lt (hbefall _ (by omega))) ht01 ?_
          · rw [hn21]
          · rw [hn21]
            exact spaced_lt pts hsp (by omega) (by omega)
          · intro j hj hgt hle
            have hjle : j ≤ pts.length - 2 := by omega
            exact absurd hgt (not_lt.mpr (sorted_le pts hss hjle (by omega)))
    · -- a single point with t0 at or past it: the first advance clamps
      have hn1 : pts.length = 1 := by omega
      have hlh : pts.getLastI = pts.headI := by
        rw [hlast, hhead, hn1]
      have hinit : initState pts t0
          = ⟨((0 : ℕ) : ℤ), ptAt pts 0, ⟨(pts.getLastI).x, (pts.getLastI).y⟩⟩ := by
        have hk2 : (if lowerBound pts t0 = pts.length then lowerBound pts t0 - 1
            else lowerBound pts t0) = 0 := by
          have := lowerBound_le_length pts t0
          by_cases hx : lowerBound pts t0 = pts.length
          · simp [hx, hn1]
          · simp only [if_neg hx]
            omega
        have e1 : getPointSafe pts (((0 : ℕ) : ℤ) + 1)
            = ⟨(pts.getLastI).x, (pts.getLastI).y⟩ :=
          getPointSafe_big pts (by omega)
        simp only [initState, if_pos hafter, hk2, ne_eq, not_true_eq_false,
          if_neg (by simp : ¬ ((0 : ℕ) ≠ 0)), e00, e1]
        simp only [ScanState.mk.injEq]
        refine ⟨by simp, by simpa using e00, by simpa using e1⟩
      have hlq : (pts.getLastI).x ≤ t0 := by
        rw [hlh]
        exact hafter
      have hcond : (ScanState.mk ((0 : ℕ) : ℤ) (ptAt pts 0)
          ⟨(pts.getLastI).x, (pts.getLastI).y⟩).pt1.x ≤ t0 := hlq
      rw [hinit, scanStep, if_pos hcond]
      rw [show (ScanState.mk ((0 : ℕ) : ℤ) (ptAt pts 0)
          ⟨(pts.getLastI).x, (pts.getLastI).y⟩).curnode = ((0 : ℕ) : ℤ) from rfl]
      rw [advanceState_past pts t1 (((0 : ℕ) : ℤ) + 1) (by omega)]
      refine ⟨Or.inr (Or.inr ⟨?_, rfl, rfl, hlq⟩), ?_⟩
      · show (pts.length : ℤ) - 1 ≤ ((0 : ℕ) : ℤ) + 1
        omega
      rw [scanValue]
      have hd : t1 - (pts.getLastI).x ≠ 0 := by
        intro hzero
        have : t1 = (pts.getLastI).x := by linarith
        rw [this] at ht01
        linarith
      rw [show (ScanState.mk (((0:ℕ):ℤ) + 1) pts.getLastI ⟨t1, (pts.getLastI).y⟩).pt0
          = pts.getLastI from rfl]
      rw [show (ScanState.mk (((0:ℕ):ℤ) + 1) pts.getLastI ⟨t1, (pts.getLastI).y⟩).pt1
          = ⟨t1, (pts.getLastI).y⟩ from rfl]
      rw [interpVal_const pts.getLastI ⟨t1, (pts.getLastI).y⟩ t0 hd rfl,
        getValueAtTime_after pts t0 hss hne hlq]

theorem sTime_zero (N : ℕ) (t0 t1 : ℚ) : sTime N t0 t1 0 = t0 := by
  simp [sTime]

theorem sTime_mono (N : ℕ) (t0 t1 : ℚ) {a b : ℕ} (hab : a ≤ b) (h01 : t0 ≤ t1) :
    sTime N t0 t1 a ≤ sTime N t0 t1 b := by
  unfold sTime
  have hab' : (a : ℚ) ≤ (b : ℚ) := by exact_mod_cast hab
  have h10 : (0 : ℚ) ≤ t1 - t0 := by linarith
  have hN : (0 : ℚ) ≤ (N : ℚ) := by positivity
  have hmul : (t1 - t0) * (a : ℚ) ≤ (t1 - t0) * (b : ℚ) :=
    mul_le_mul_of_nonneg_left hab' h10
  have hdiv : (t1 - t0) * (a : ℚ) / (N : ℚ) ≤ (t1 - t0) * (b : ℚ) / (N : ℚ) := by
    rcases eq_or_lt_of_le hN with hz | hpos
    · rw [← hz]
      norm_num
    · exact (div_le_div_iff_of_pos_right hpos).mpr hmul
  linarith

theorem sTime_lt_right (N : ℕ) (t0 t1 : ℚ) {i : ℕ} (hi : i < N) (h01 : t0 < t1) :
    sTime N t0 t1 i < t1 := by
  unfold sTime
  have hi' : (i : ℚ) < (N : ℚ) := by exact_mod_cast hi
  have hNpos : (0 : ℚ) < (N : ℚ) := by
    have : 0 < N := by omega
    exact_mod_cast this
  have hd : (0 : ℚ) < t1 - t0 := by linarith
  have hmul : (t1 - t0) * (i : ℚ) < (t1 - t0) * (N : ℚ) := mul_lt_mul_of_pos_left hi' hd
  have : (t1 - t0) * (i : ℚ) / (N : ℚ) < t1 - t0 := by
    rw [div_lt_iff₀ hNpos]
    calc (t1 - t0) * (i : ℚ) < (t1 - t0) * (N : ℚ) := hmul
      _ = (t1 - t0) * (N : ℚ) := rfl
  linarith

theorem applyLoop_ok (pts : List EnvelopePoint) (t0 t1 : ℚ) (N : ℕ)
    (hsp : SpacedPts pts) (hne : pts ≠ []) (ht01 : t0 < t1)
    (hone : ∀ i j : ℕ, 1 ≤ i → i < N → j + 1 < pts.length →
      sTime N t0 t1 (i - 1) < (ptAt pts j).x → (ptAt pts j).x ≤ sTime N t0 t1 i →
      sTime N t0 t1 i < (ptAt pts (j + 1)).x) :
    ∀ fuel i st, 1 ≤ i → i + fuel = N →
      StateOK pts t1 (sTime N t0 t1 (i - 1)) st →
      applyLoop pts N t0 t1 i fuel st
        = (List.range fuel).map fun k => getValueAtTime pts (sTime N t0 t1 (i + k)) := by
  intro fuel
  induction fuel with
  | zero =>
    intro i st h1 h2 h3
    simp [applyLoop]
  | succ fuel ih =>
    intro i st h1 h2 hst
    have hiN : i < N := by omega
    have hmono : sTime N t0 t1 (i - 1) ≤ sTime N t0 t1 i :=
      sTime_mono N t0 t1 (by omega) (le_of_lt ht01)
    have hlt1 : sTime N t0 t1 i < t1 := sTime_lt_right N t0 t1 hiN ht01
    have hstep := scanStep_ok pts t1 (sTime N t0 t1 (i - 1)) (sTime N t0 t1 i) st hsp hne
      hst hmono hlt1 (fun j hj => hone i j h1 hiN hj)
    simp only [applyLoop]
    rw [hstep.2]
    have hih := ih (i + 1) (scanStep pts t1 (sTime N t0 t1 i) st) (by omega) (by omega)
      (by
        have hred : i + 1 - 1 = i := rfl
        rw [hred]
        exact hstep.1)
    rw [hih]
    rw [List.range_succ_eq_map, List.map_cons, List.map_map]
    congr 1
    apply List.map_congr_left
    intro k hk
    have hidx : i + 1 + k = i + (k + 1) := by omega
    simp only [Function.comp_apply, hidx]

/-- C1 (amended): with no degenerate segments (consecutive breakpoint times at
least `1e-5` apart), a strictly increasing sample range `t0 < t1`, and each
sample step crossing at most one segment boundary, the scan of `applyToBuffer`
(no clamping) writes at every index `i` exactly the value `getValueAtTime`
returns at the sample time `t0 + (t1 - t0) * i / count`. -/
theorem applyToBuffer_eq_valueAt_of_oneStep (pts : List EnvelopePoint) (t0 t1 : ℚ)
    (N : ℕ) (hsp : SpacedPts pts) (hne : pts ≠ []) (ht01 : t0 < t1) (hN : 1 ≤ N)
    (hone : ∀ i j : ℕ, 1 ≤ i → i < N → j + 1 < pts.length →
      sTime N t0 t1 (i - 1) < (ptAt pts j).x → (ptAt pts j).x ≤ sTime N t0 t1 i →
      sTime N t0 t1 i < (ptAt pts (j + 1)).x) :
    applyToBuffer pts N t0 t1 ⟨0, 0⟩
      = (List.range N).map fun i => getValueAtTime pts (sTime N t0 t1 i) := by
  have hempty : (RangeD.mk 0 0).isEmpty = true := by decide
  rw [applyToBuffer, if_pos hempty]
  obtain ⟨M, rfl⟩ : ∃ M, N = M + 1 := ⟨N - 1, by omega⟩
  have hinit := init_ok pts t0 t1 hsp hne ht01
  have hs0 : sTime (M + 1) t0 t1 0 = t0 := sTime_zero (M + 1) t0 t1
  simp only [applyLoop, hs0]
  rw [hinit.2]
  have htail := applyLoop_ok pts t0 t1 (M + 1) hsp hne ht01 hone M 1
    (scanStep pts t1 t0 (initState pts t0)) le_rfl (by omega)
    (by
      have hred : (1 : ℕ) - 1 = 0 := rfl
      rw [hred, hs0]
      exact hinit.1)
  rw [htail]
  rw [List.range_succ_eq_map, List.map_cons, List.map_map]
  congr 1
  · rw [hs0]
  · apply List.map_congr_left
    intro k hk
    have : 1 + k = k + 1 := by omega
    simp only [Function.comp_apply, this]

theorem jlimit_mem (lo hi v : ℚ) (h : lo ≤ hi) :
    lo ≤ jlimit lo hi v ∧ jlimit lo hi v ≤ hi := by
  unfold jlimit
  split_ifs with h1 h2
  · exact ⟨le_refl lo, h⟩
  · exact ⟨h, le_refl hi⟩
  · constructor <;> linarith

/-! The claims. -/

/-- C1 (counterexample): for the sorted curve `(0,0),(1,10),(2,20),(10,0)` with
`t0 = 0 ≤ t1 = 10` and `count = 2`, the second sample time `5` crosses two
segment boundaries at once; the single conditional advance of `applyToBuffer`
lands on the wrong segment (writing `50`, an extrapolation of the second
segment) while `getValueAtTime` returns `25/2`, so the bulk evaluation does not
match the single-time query. -/
theorem applyToBuffer_skips_segment :
    applyToBuffer [⟨0,0⟩, ⟨1,10⟩, ⟨2,20⟩, ⟨10,0⟩] 2 0 10 ⟨0, 0⟩
      ≠ (List.range 2).map fun i =>
          getValueAtTime [⟨0,0⟩, ⟨1,10⟩, ⟨2,20⟩, ⟨10,0⟩] (sTime 2 0 10 i) := by
  decide

/-- C1 (witness for the amended theorem): a concrete instance discharging every
hypothesis of `applyToBuffer_eq_valueAt_of_oneStep`. -/
theorem applyToBuffer_eq_valueAt_of_oneStep_witness :
    applyToBuffer [⟨0,0⟩, ⟨1,1⟩] 1 0 2 ⟨0, 0⟩
      = (List.range 1).map fun i => getValueAtTime [⟨0,0⟩, ⟨1,1⟩] (sTime 1 0 2 i) :=
  applyToBuffer_eq_valueAt_of_oneStep [⟨0,0⟩, ⟨1,1⟩] 0 2 1
    (by norm_num [SpacedPts, List.chain'_cons]) (by simp) (by norm_num) le_rfl
    (fun i j h1 h2 hj hlt hle => absurd (Nat.lt_of_le_of_lt h1 h2) (Nat.lt_irrefl 1))

/-- C2 (code bug evaluation): on the sorted curve `(0,0),(0,10),(1,5)` — whose
first two breakpoints are closer than `1e-5` (equal times) — the query
`getValueAtTime 0` takes the degenerate-segment guard, which rewrites the right
endpoint to `(0,10)` and then divides by the exactly-zero width `0 - 0`,
producing a non-finite value (`none`, NaN in the C++ code) instead of a finite
one. -/
theorem getValueAtTime_none_on_degenerate_head :
    getValueAtTime [⟨0,0⟩, ⟨0,10⟩, ⟨1,5⟩] 0 = none := by
  decide

/-- C3 (counterexample): on the sorted two-point curve `(0,1),(0,2)` (tied
times), the query at `t = 0 = firstPoint.time` satisfies `t >= lastPoint.time`
first and returns the *last* tied value `2`, not `firstPoint.value = 1`. -/
theorem getValueAtTime_at_first_time_ne_first_value :
    getValueAtTime [⟨0,1⟩, ⟨0,2⟩] 0 = some 2
      ∧ getValueAtTime [⟨0,1⟩, ⟨0,2⟩] 0 ≠ some 1 := by
  decide

/-- C3 (amended): flat extension holds strictly before the first point and at or
after the last point; at `t` exactly equal to the first point's time, the first
value is returned provided the curve has a single point or its second point's
time is at least `1e-5` greater (with a tied or nearly-tied second time the code
returns the last tied value or a non-finite value instead). -/
theorem getValueAtTime_flat_extension (pts : List EnvelopePoint) (t : ℚ)
    (hs : SortedPts pts) (hne : pts ≠ []) :
    (t < (pts.headI).x → getValueAtTime pts t = some (pts.headI).y)
  ∧ ((pts.getLastI).x ≤ t → getValueAtTime pts t = some (pts.getLastI).y)
  ∧ (t = (pts.headI).x →
      (pts.length = 1 ∨ (pts.headI).x + 1/100000 ≤ (ptAt pts 1).x) →
      getValueAtTime pts t = some (pts.headI).y) := by
  have hn : 0 < pts.length := List.length_pos.mpr hne
  have hhead : pts.headI = ptAt pts 0 := headI_eq_ptAt pts hne
  have hlast : pts.getLastI = ptAt pts (pts.length - 1) := getLastI_eq_ptAt pts hne
  refine ⟨fun h => getValueAtTime_before pts t h,
    fun h => getValueAtTime_after pts t hs hne h, fun heq hcase => ?_⟩
  rcases Nat.lt_or_ge 1 pts.length with hn2 | hn1
  · have hgap : (pts.headI).x + 1/100000 ≤ (ptAt pts 1).x := by
      rcases hcase with h1 | hgap
      · exact absurd h1 (by omega)
      · exact hgap
    have h1x : ¬ t < (pts.headI).x := by
      rw [heq]
      exact lt_irrefl _
    have hlt1 : t < (ptAt pts 1).x := by
      rw [heq]
      linarith
    have h2x : ¬ (pts.getLastI).x ≤ t := by
      push_neg
      rw [hlast]
      calc t < (ptAt pts 1).x := hlt1
        _ ≤ (ptAt pts (pts.length - 1)).x := sorted_le pts hs (by omega) (by omega)
    have hK : lowerBound pts t = 0 :=
      lowerBound_eq pts t 0 (by omega) (le_of_eq (by rw [heq, hhead]))
        (fun m hm => absurd hm (Nat.not_lt_zero m))
    have hgap' : ¬ (ptAt pts (0 + 1)).x - (ptAt pts 0).x < 1/100000 := by
      push_neg
      rw [← hhead]
      linarith
    have heval := interpAt_eval pts 0 t (by omega) hgap'
    simp only [getValueAtTime, if_neg h1x, if_neg h2x, hK,
      if_neg (by omega : ¬ (0 : ℕ) = pts.length), ne_eq, not_true_eq_false,
      if_neg (by simp : ¬ ((0 : ℕ) ≠ 0))]
    have hif : (if False then (0 : ℕ) - 1 else 0) = (0 : ℕ) := by simp
    rw [hif, heval, heq, hhead]
    have hd : (ptAt pts (0 + 1)).x - (ptAt pts 0).x ≠ 0 := by
      push_neg at hgap'
      linarith
    rw [interpVal_left (ptAt pts 0) (ptAt pts (0 + 1)) hd]
  · have hn1' : pts.length = 1 := by omega
    have hlh : pts.getLastI = pts.headI := by
      rw [hlast, hhead, hn1']
    have hres := getValueAtTime_after pts t hs hne
      (le_of_eq (show (pts.getLastI).x = t by rw [hlh, heq]))
    rw [hres, hlh]

/-- C3 (witness for the amended theorem): a concrete instance discharging every
hypothesis of `getValueAtTime_flat_extension` (flat extension after the last
point of a one-point curve). -/
theorem getValueAtTime_flat_extension_witness :
    getValueAtTime [⟨0,3⟩] 5 = some 3 := by
  rw [(getValueAtTime_flat_extension [⟨0,3⟩] 5 (by simp [SortedPts]) (by simp)).2.1
    (by decide)]
  decide

/-- C4 (counterexample): filling one sample of the sorted degenerate curve
`(0,0),(0,10)` over `t0 = t1 = 0` with the non-empty clamp range `(0,1)` writes
a non-finite entry (`none`, NaN in the C++ code, produced by a zero-width
division); `jlimit` passes NaN through, so the written entry does not lie in
`[0,1]`. -/
theorem applyToBuffer_clamped_entry_not_in_range :
    applyToBuffer [⟨0,0⟩, ⟨0,10⟩] 1 0 0 ⟨0, 1⟩ = [none]
      ∧ ¬ ∃ q : ℚ, (none : Option ℚ) = some q ∧ 0 ≤ q ∧ q ≤ 1 := by
  refine ⟨by decide, ?_⟩
  rintro ⟨q, hq, -⟩
  exact Option.noConfusion hq

/-- C4 (amended): with a supplied (non-empty) clamp range `lo ≤ hi`, every
*finite* written entry lies in `[lo, hi]` (a non-finite entry passes through the
clamp unchanged); with an empty clamp range the output is exactly the raw
interpolation scan — no clamping ever occurs. -/
theorem applyToBuffer_clamp_spec (pts : List EnvelopePoint) (N : ℕ) (t0 t1 : ℚ)
    (r : RangeD) :
    (r.isEmpty = false → r.start ≤ r.stop →
      ∀ v ∈ applyToBuffer pts N t0 t1 r, ∀ q : ℚ, v = some q →
        r.start ≤ q ∧ q ≤ r.stop)
  ∧ (r.isEmpty = true →
      applyToBuffer pts N t0 t1 r = applyLoop pts N t0 t1 0 N (initState pts t0)) := by
  constructor
  · intro hempty hle v hv q hq
    rw [applyToBuffer, if_neg (by simp [hempty])] at hv
    rcases List.mem_map.mp hv with ⟨w, hw, hwv⟩
    cases w with
    | none =>
      rw [← hwv] at hq
      exact Option.noConfusion hq
    | some a =>
      rw [← hwv] at hq
      have hqa : q = jlimit r.start r.stop a := by
        simpa using hq.symm
      rw [hqa]
      exact jlimit_mem r.start r.stop a hle
  · intro hempty
    rw [applyToBuffer, if_pos hempty]

/-- C4 (witness for the amended theorem): a concrete instance discharging every
hypothesis of `applyToBuffer_clamp_spec`. -/
theorem applyToBuffer_clamp_spec_witness :
    applyToBuffer [⟨0,0⟩] 1 0 1 ⟨0, 2⟩ = [some 0]
      ∧ ((0 : ℚ) ≤ 0 ∧ (0 : ℚ) ≤ 2) :=
  ⟨by decide,
    (applyToBuffer_clamp_spec [⟨0,0⟩] 1 0 1 ⟨0, 2⟩).1 (by decide) (by norm_num)
      (some 0) (by decide) 0 rfl⟩

/-- C5: for the curve `(0,0),(10,10),(20,0)`, `applyToBuffer` over `[0,20)` with
`count = 20` (no clamping) writes at each index `i` exactly the value
`getValueAtTime` returns at sample time `0 + (20-0)*i/20 = i`. -/
theorem applyToBuffer_example_curve_matches_valueAt :
    applyToBuffer [⟨0,0⟩, ⟨10,10⟩, ⟨20,0⟩] 20 0 20 ⟨0, 0⟩
      = (List.range 20).map fun i =>
          getValueAtTime [⟨0,0⟩, ⟨10,10⟩, ⟨20,0⟩] (sTime 20 0 20 i) := by
  decide

/-- C6: `removePointsInTimeRange t0 t1` keeps, in their original relative order,
exactly the points whose time does not lie in the closed interval `[t0, t1]`:
it equals the order-preserving filter, and the result is a sublist of the
original sequence. -/
theorem removePointsInTimeRange_filter_spec (pts : List EnvelopePoint) (t0 t1 : ℚ) :
    removePointsInTimeRange pts t0 t1
        = pts.filter (fun p => decide (¬ (t0 ≤ p.x ∧ p.x ≤ t1)))
      ∧ (removePointsInTimeRange pts t0 t1).Sublist pts := by
  have hfe : removePointsInTimeRange pts t0 t1
      = pts.filter (fun p => decide (¬ (t0 ≤ p.x ∧ p.x ≤ t1))) := by
    unfold removePointsInTimeRange erase
    apply List.filter_congr
    intro p hp
    by_cases h1 : t0 ≤ p.x <;> by_cases h2 : p.x ≤ t1 <;> simp [h1, h2]
  refine ⟨hfe, ?_⟩
  unfold removePointsInTimeRange erase
  exact List.filter_sublist pts

/-- C7: `getPointSafe` is total on every non-empty curve: a negative index
yields the synthetic point `(firstPoint.time - 0.1, firstPoint.value)`, an index
`≥ size` yields `(lastPoint.time, lastPoint.value)`, and an in-range index
yields the stored point at that position. -/
theorem getPointSafe_total_spec (pts : List EnvelopePoint) (index : ℤ)
    (_hne : pts ≠ []) :
    (index < 0 → getPointSafe pts index = ⟨(pts.headI).x - 1/10, (pts.headI).y⟩)
  ∧ ((pts.length : ℤ) ≤ index →
      getPointSafe pts index = ⟨(pts.getLastI).x, (pts.getLastI).y⟩)
  ∧ (0 ≤ index → index < (pts.length : ℤ) →
      getPointSafe pts index = pts.getD index.toNat ⟨0, 0⟩) := by
  refine ⟨fun h => getPointSafe_neg pts h, fun h => getPointSafe_big pts h,
    fun h0 hl => ?_⟩
  have h1 : ¬ index < 0 := by omega
  have h2 : ¬ (pts.length : ℤ) ≤ index := by omega
  simp [getPointSafe, h1, h2]

/-- C7 (witness): a concrete instance discharging every hypothesis of
`getPointSafe_total_spec` in each of the three index regimes. -/
theorem getPointSafe_total_spec_witness :
    getPointSafe [⟨2,3⟩, ⟨4,5⟩] (-1) = ⟨19/10, 3⟩
  ∧ getPointSafe [⟨2,3⟩, ⟨4,5⟩] 5 = ⟨4, 5⟩
  ∧ getPointSafe [⟨2,3⟩, ⟨4,5⟩] 1 = ⟨4, 5⟩ := by
  refine ⟨?_, ?_, ?_⟩
  · rw [(getPointSafe_total_spec [⟨2,3⟩, ⟨4,5⟩] (-1) (by decide)).1 (by decide)]
    decide
  · rw [(getPointSafe_total_spec [⟨2,3⟩, ⟨4,5⟩] 5 (by decide)).2.1 (by decide)]
    decide
  · rw [(getPointSafe_total_spec [⟨2,3⟩, ⟨4,5⟩] 1 (by decide)).2.2 (by decide) (by decide)]
    decide

/-- C8: on the two-point curve `(0,0),(10,10)` the query `getValueAtTime 5`
returns exactly `5`, via the normalized-fraction interpolation
`frac = (5-0)/(10-0)`, `v = 0 + frac*(10-0)`. -/
theorem getValueAtTime_midpoint_example :
    getValueAtTime [⟨0,0⟩, ⟨10,10⟩] 5 = some 5 := by
  decide

/-- C9: `removePoint index` erases the point at `index` exactly when
`0 ≤ index < size` (leaving the surrounding points in order), and is a silent
no-op for every other index. -/
theorem removePoint_spec (pts : List EnvelopePoint) (index : ℤ) :
    (0 ≤ index → index < (pts.length : ℤ) →
      removePoint pts index = pts.take index.toNat ++ pts.drop (index.toNat + 1))
  ∧ (index < 0 ∨ (pts.length : ℤ) ≤ index → removePoint pts index = pts) := by
  constructor
  · intro h0 hl
    rw [removePoint, if_pos ⟨h0, hl⟩, List.eraseIdx_eq_take_drop_succ]
  · intro h
    have hno : ¬ (0 ≤ index ∧ index < (pts.length : ℤ)) := by
      rcases h with h | h <;> omega
    rw [removePoint, if_neg hno]

/-- C9 (witness): a concrete in-range erase and a concrete out-of-range no-op,
both through `removePoint_spec`. -/
theorem removePoint_spec_witness :
    removePoint [⟨0,0⟩, ⟨1,1⟩, ⟨2,2⟩] 1 = [⟨0,0⟩, ⟨2,2⟩]
  ∧ removePoint [⟨0,0⟩, ⟨1,1⟩, ⟨2,2⟩] (-2) = [⟨0,0⟩, ⟨1,1⟩, ⟨2,2⟩] := by
  constructor
  · rw [(removePoint_spec [⟨0,0⟩, ⟨1,1⟩, ⟨2,2⟩] 1).1 (by decide) (by decide)]
    decide
  · exact (removePoint_spec [⟨0,0⟩, ⟨1,1⟩, ⟨2,2⟩] (-2)).2 (Or.inl (by decide))

/-- C10: every time-preserving mutation keeps the sorted-ascending-by-time
invariant (and the removals keep the surviving points in their previous relative
order): `removePoint`, `removePointsInTimeRange`, `removePointsConditionally`
with any predicate, `scaleAndShiftValues` with any scale and shift, and
`scaleTimes` with any factor `≥ 0`. -/
theorem mutations_preserve_sorted (pts : List EnvelopePoint) (index : ℤ)
    (t0 t1 : ℚ) (f : EnvelopePoint → Bool) (sy shifty sx : ℚ)
    (hs : SortedPts pts) (hsx : 0 ≤ sx) :
    (SortedPts (removePoint pts index) ∧ (removePoint pts index).Sublist pts)
  ∧ (SortedPts (removePointsInTimeRange pts t0 t1)
      ∧ (removePointsInTimeRange pts t0 t1).Sublist pts)
  ∧ (SortedPts (removePointsConditionally pts f)
      ∧ (removePointsConditionally pts f).Sublist pts)
  ∧ SortedPts (scaleAndShiftValues pts sy shifty)
  ∧ SortedPts (scaleTimes pts sx) := by
  have hsub1 : (removePoint pts index).Sublist pts := by
    rw [removePoint]
    split
    · exact List.eraseIdx_sublist pts index.toNat
    · exact List.Sublist.refl pts
  have hsub2 : (removePointsInTimeRange pts t0 t1).Sublist pts :=
    List.filter_sublist pts
  have hsub3 : (removePointsConditionally pts f).Sublist pts :=
    List.filter_sublist pts
  have hmap1 : SortedPts (scaleAndShiftValues pts sy shifty) := by
    unfold scaleAndShiftValues SortedPts
    rw [List.pairwise_map]
    exact hs
  have hmap2 : SortedPts (scaleTimes pts sx) := by
    unfold scaleTimes SortedPts
    rw [List.pairwise_map]
    exact hs.imp (fun hab => mul_le_mul_of_nonneg_right hab hsx)
  exact ⟨⟨List.Pairwise.sublist hsub1 hs, hsub1⟩,
    ⟨List.Pairwise.sublist hsub2 hs, hsub2⟩,
    ⟨List.Pairwise.sublist hsub3 hs, hsub3⟩, hmap1, hmap2⟩

/-- C10 (witness): a concrete instance discharging every hypothesis of
`mutations_preserve_sorted`. -/
theorem mutations_preserve_sorted_witness :
    (SortedPts (removePoint [⟨0,0⟩, ⟨1,1⟩] 0)
      ∧ (removePoint [⟨0,0⟩, ⟨1,1⟩] 0).Sublist [⟨0,0⟩, ⟨1,1⟩])
  ∧ (SortedPts (removePointsInTimeRange [⟨0,0⟩, ⟨1,1⟩] 0 1)
      ∧ (removePointsInTimeRange [⟨0,0⟩, ⟨1,1⟩] 0 1).Sublist [⟨0,0⟩, ⟨1,1⟩])
  ∧ (SortedPts (removePointsConditionally [⟨0,0⟩, ⟨1,1⟩] (fun p => p.y == 0))
      ∧ (removePointsConditionally [⟨0,0⟩, ⟨1,1⟩]
          (fun p => p.y == 0)).Sublist [⟨0,0⟩, ⟨1,1⟩])
  ∧ SortedPts (scaleAndShiftValues [⟨0,0⟩, ⟨1,1⟩] 3 1)
  ∧ SortedPts (scaleTimes [⟨0,0⟩, ⟨1,1⟩] 2) :=
  mutations_preserve_sorted [⟨0,0⟩, ⟨1,1⟩] 0 0 1 (fun p => p.y == 0) 3 1 2
    (by norm_num [SortedPts, List.pairwise_cons]) (by norm_num)
